import Mathlib

/-!
Shallow embedding of `src/codegen/src/sqlstate.rs` (the libpq.rs sqlstate
code generator).  The generator parses a line-oriented error-code table and
emits Rust source text: one constant per entry plus a `from_code` lookup
function.  Following the spec's own modelling note, the embedded table
(`include_str!("errcodes.txt")`) is abstracted into an explicit input
parameter, so `parse_errors` and `build` become pure functions of the table
text.  Rust panics (`unwrap` on a missing field, the `unreachable!()` arm of
the severity match) are modelled as `Option`/`LineResult.fault` outcomes:
`none` means the run aborts before producing output.
-/

namespace Sqlstate

/-- The `Kind` enum of the generator: severity of a status entry. -/
inductive Kind where
  | Error : Kind
  | Warning : Kind
  | Success : Kind
deriving DecidableEq

/-- The `Error` struct of the generator: one parsed table row. -/
structure Error where
  code : String
  kind : Kind
  name : String
  message : Option String
deriving DecidableEq

/-- Rust `char::is_whitespace`: the Unicode White_Space property. -/
def rustIsWhitespace (c : Char) : Bool :=
  let n := c.toNat
  n = 0x09 || n = 0x0A || n = 0x0B || n = 0x0C || n = 0x0D || n = 0x20 ||
  n = 0x85 || n = 0xA0 || n = 0x1680 || (0x2000 ≤ n && n ≤ 0x200A) ||
  n = 0x2028 || n = 0x2029 || n = 0x202F || n = 0x205F || n = 0x3000

/-- Strip one trailing carriage return, as Rust `str::lines` does on
`\r\n`-terminated lines. -/
def stripCR (l : List Char) : List Char :=
  if l.getLast? = some '\r' then l.dropLast else l

/-- Worker for `rustLines`; `acc` holds the current line, reversed. -/
def rustLinesAux : List Char → List Char → List String
  | [], acc => if acc.isEmpty then [] else [String.mk acc.reverse]
  | c :: rest, acc =>
    if c = '\n' then String.mk (stripCR acc.reverse) :: rustLinesAux rest []
    else rustLinesAux rest (c :: acc)

/-- Rust `str::lines`: split at `\n` (eating a preceding `\r`); a final line
without a terminator is kept, a trailing terminator adds no empty line. -/
def rustLines (s : String) : List String :=
  rustLinesAux s.data []

/-- Rust `str::trim`: drop whitespace from both ends. -/
def rustTrim (l : List Char) : List Char :=
  ((l.dropWhile rustIsWhitespace).reverse.dropWhile rustIsWhitespace).reverse

/-- Worker for `splitWhitespace`; `acc` holds the current token, reversed. -/
def splitWsAux : List Char → List Char → List (List Char)
  | [], acc => if acc.isEmpty then [] else [acc.reverse]
  | c :: rest, acc =>
    if rustIsWhitespace c then
      if acc.isEmpty then splitWsAux rest []
      else acc.reverse :: splitWsAux rest []
    else splitWsAux rest (c :: acc)

/-- Rust `str::split_whitespace`: whitespace-separated tokens, no empties. -/
def splitWhitespace (s : String) : List String :=
  (splitWsAux s.data []).map String.mk

/-- Rust `str::replace("ERRCODE_", "")` specialised to the fixed pattern:
delete every non-overlapping occurrence, scanning left to right. -/
def removeERRCODE : List Char → List Char
  | 'E' :: 'R' :: 'R' :: 'C' :: 'O' :: 'D' :: 'E' :: '_' :: rest => removeERRCODE rest
  | c :: rest => c :: removeERRCODE rest
  | [] => []

/-- Rust `str::replace('_', " ")` on the optional fourth field. -/
def replaceUnderscores (s : String) : String :=
  String.mk (s.data.map (fun c => if c = '_' then ' ' else c))

/-- The line-skipping test of `parse_errors`:
`line.starts_with('#') || line.starts_with("Section") || line.trim().is_empty()`. -/
def skipLine (line : String) : Bool :=
  (line.data.head? = some '#' : Bool) ||
  "Section".data.isPrefixOf line.data ||
  (rustTrim line.data).isEmpty

/-- The severity match of `parse_errors`; `none` models the
`unreachable!()` panic on an unrecognised token. -/
def parseKind (s : String) : Option Kind :=
  if s = "E" then some Kind.Error
  else if s = "W" then some Kind.Warning
  else if s = "S" then some Kind.Success
  else none

/-- Outcome of one loop iteration of `parse_errors` on one line. -/
inductive LineResult where
  | skip : LineResult
  | entry : String → Error → LineResult
  | fault : LineResult
deriving DecidableEq

/-- One iteration of the `parse_errors` loop: skip test, whitespace split,
positional field reads (`unwrap` panics and the `unreachable!()` severity
panic become `fault`), `ERRCODE_` removal, underscore replacement. -/
def processLine (line : String) : LineResult :=
  if skipLine line then LineResult.skip
  else
    match splitWhitespace line with
    | [] => LineResult.fault
    | code :: rest =>
      match rest with
      | [] => LineResult.fault
      | kindTok :: rest2 =>
        match parseKind kindTok with
        | none => LineResult.fault
        | some kind =>
          match rest2 with
          | [] => LineResult.fault
          | nameTok :: rest3 =>
            LineResult.entry code
              { code := code, kind := kind,
                name := String.mk (removeERRCODE nameTok.data),
                message := rest3.head?.map replaceUnderscores }

/-- Strict lexicographic order on character lists, comparing code points;
on UTF-8 strings this coincides with the byte-wise `Ord` that
`BTreeMap<String, _>` sorts by. -/
def listCharLt : List Char → List Char → Bool
  | [], [] => false
  | [], _ :: _ => true
  | _ :: _, [] => false
  | a :: as, b :: bs =>
    if a.toNat < b.toNat then true
    else if b.toNat < a.toNat then false
    else listCharLt as bs

/-- The `Ord`-order of `String` keys in the `BTreeMap`. -/
def strLt (a b : String) : Bool := listCharLt a.data b.data

/-- `BTreeMap::insert` on the sorted-by-key association-list model of
`BTreeMap<String, Error>`: keeps keys strictly ascending, replaces the
stored value when the key is already present. -/
def btreeInsert (k : String) (v : Error) : List (String × Error) → List (String × Error)
  | [] => [(k, v)]
  | (k', v') :: rest =>
    if strLt k k' then (k, v) :: (k', v') :: rest
    else if k = k' then (k, v) :: rest
    else (k', v') :: btreeInsert k v rest

/-- The `parse_errors` loop over the remaining lines, with `acc` the map
built so far; `none` models a panic aborting the whole run. -/
def parseLinesAux (acc : List (String × Error)) : List String → Option (List (String × Error))
  | [] => some acc
  | l :: ls =>
    match processLine l with
    | LineResult.skip => parseLinesAux acc ls
    | LineResult.fault => none
    | LineResult.entry c e => parseLinesAux (btreeInsert c e acc) ls

/-- `parse_errors`, as a pure function of the table text (the source reads
the embedded `errcodes.txt`; the spec models the text as a parameter). -/
def parse_errors (input : String) : Option (List (String × Error)) :=
  parseLinesAux [] (rustLines input)

/-- The code of the data row a line parses to, if it produces an entry. -/
def rowCode (line : String) : Option String :=
  match processLine line with
  | LineResult.entry c _ => some c
  | _ => none

/-- Semantics of the emitted `State::from_code` match: first (unique) arm
whose code equals the scrutinee, `none` for the `unreachable!()` default. -/
def from_code (errors : List (String × Error)) (s : String) : Option Error :=
  match errors with
  | [] => none
  | (k, v) :: rest => if s = k then some v else from_code rest s

/-- `Debug` rendering of `Kind`, used by the `{kind:?}` format. -/
def kindDebug : Kind → String
  | Kind.Error => "Error"
  | Kind.Warning => "Warning"
  | Kind.Success => "Success"

/-- The `Display` impl for `Error`: the text of one emitted constant. -/
def displayError (e : Error) : String :=
  (match e.message with
   | some x => "/// " ++ x
   | none => "")
  ++ "\npub const " ++ e.name ++ ": State = State \x7b\n    code: \"" ++ e.code
  ++ "\",\n    name: \"" ++ e.name ++ "\",\n    kind: Kind::" ++ kindDebug e.kind
  ++ ",\n    message: "
  ++ (match e.message with
      | some x => "Some(\"" ++ x ++ "\")"
      | none => "None")
  ++ ",\n\x7d;\n"

/-- `make_header`: the fixed generated-file marker line. -/
def make_header : String := "// Autogenerated file - DO NOT EDIT\n"

/-- Iteration order of `make_consts`: the map's values in ascending key
order — the sequence of emitted constants. -/
def make_consts_list (errors : List (String × Error)) : List Error :=
  errors.map (fun p => p.2)

/-- `make_consts`: concatenated `Display` text of every entry, in ascending
code order. -/
def make_consts (errors : List (String × Error)) : String :=
  String.join ((make_consts_list errors).map displayError)

/-- One match arm emitted by `make_type`. -/
def make_type_arm (k : String) (e : Error) : String :=
  "            \"" ++ k ++ "\" => " ++ e.name ++ ","

/-- `make_type`: the emitted `impl State` block with the `from_code`
match over all codes in ascending order. -/
def make_type (errors : List (String × Error)) : String :=
  "\nimpl State \x7b\n    /// Creates a `State` from its error code.\n    pub fn from_code(s: &str) -> State \x7b\n        match s \x7b\n"
  ++ String.intercalate "\n" (errors.map (fun p => make_type_arm p.1 p.2))
  ++ "\n            _ => unreachable!(),\n        \x7d\n    \x7d\n\x7d\n"

/-- `build`: parse, then emit header, constants and lookup in that order;
`none` models a parse panic, which aborts before any byte is written. -/
def build (input : String) : Option String :=
  (parse_errors input).map (fun errors =>
    make_header ++ make_consts errors ++ make_type errors)

/-! ### Helper lemmas about the embedding -/

theorem listCharLt_irrefl : ∀ (l : List Char), listCharLt l l = false := by
  intro l
  induction l with
  | nil => rfl
  | cons a as ih => simp [listCharLt, ih]

theorem listCharLt_asymm :
    ∀ (a b : List Char), listCharLt a b = true → listCharLt b a = false := by
  intro a
  induction a with
  | nil =>
    intro b h
    cases b with
    | nil => exact absurd h (by simp [listCharLt])
    | cons y ys => rfl
  | cons x xs ih =>
    intro b h
    cases b with
    | nil => exact absurd h (by simp [listCharLt])
    | cons y ys =>
      simp only [listCharLt] at h ⊢
      by_cases h1 : x.toNat < y.toNat
      · have h2 : ¬ y.toNat < x.toNat := by omega
        simp [h1, h2]
      · by_cases h2 : y.toNat < x.toNat
        · rw [if_neg h1, if_pos h2] at h
          exact absurd h (by simp)
        · rw [if_neg h1, if_neg h2] at h
          rw [if_neg h2, if_neg h1]
          exact ih ys h

theorem listCharLt_trans :
    ∀ (a b c : List Char), listCharLt a b = true → listCharLt b c = true →
      listCharLt a c = true := by
  intro a
  induction a with
  | nil =>
    intro b c hab hbc
    cases c with
    | nil =>
      cases b with
      | nil => exact absurd hab (by simp [listCharLt])
      | cons y ys => exact absurd hbc (by simp [listCharLt])
    | cons z zs => rfl
  | cons x xs ih =>
    intro b c hab hbc
    cases b with
    | nil => exact absurd hab (by simp [listCharLt])
    | cons y ys =>
      cases c with
      | nil => exact absurd hbc (by simp [listCharLt])
      | cons z zs =>
        simp only [listCharLt] at hab hbc ⊢
        by_cases hxy : x.toNat < y.toNat
        · by_cases hyz : y.toNat < z.toNat
          · have : x.toNat < z.toNat := by omega
            simp [this]
          · by_cases hzy : z.toNat < y.toNat
            · rw [if_neg hyz, if_pos hzy] at hbc
              exact absurd hbc (by simp)
            · have : x.toNat < z.toNat := by omega
              simp [this]
        · by_cases hyx : y.toNat < x.toNat
          · rw [if_neg hxy, if_pos hyx] at hab
            exact absurd hab (by simp)
          · rw [if_neg hxy, if_neg hyx] at hab
            by_cases hyz : y.toNat < z.toNat
            · have : x.toNat < z.toNat := by omega
              simp [this]
            · by_cases hzy : z.toNat < y.toNat
              · rw [if_neg hyz, if_pos hzy] at hbc
                exact absurd hbc (by simp)
              · rw [if_neg hyz, if_neg hzy] at hbc
                have hxz : ¬ x.toNat < z.toNat := by omega
                have hzx : ¬ z.toNat < x.toNat := by omega
                rw [if_neg hxz, if_neg hzx]
                exact ih ys zs hab hbc

theorem listCharLt_total :
    ∀ (a b : List Char), listCharLt a b = false → listCharLt b a = false →
      a = b := by
  intro a
  induction a with
  | nil =>
    intro b h1 h2
    cases b with
    | nil => rfl
    | cons y ys => exact absurd h1 (by simp [listCharLt])
  | cons x xs ih =>
    intro b h1 h2
    cases b with
    | nil => exact absurd h2 (by simp [listCharLt])
    | cons y ys =>
      simp only [listCharLt] at h1 h2
      by_cases hxy : x.toNat < y.toNat
      · rw [if_pos hxy] at h1
        exact absurd h1 (by simp)
      · by_cases hyx : y.toNat < x.toNat
        · rw [if_pos hyx] at h2
          exact absurd h2 (by simp)
        · rw [if_neg hxy, if_neg hyx] at h1
          rw [if_neg hyx, if_neg hxy] at h2
          have hn : x.toNat = y.toNat := by omega
          have hchar : x = y := by
            apply Char.ext
            apply UInt32.ext
            exact hn
          subst hchar
          rw [ih ys h1 h2]

theorem strLt_irrefl (a : String) : strLt a a = false :=
  listCharLt_irrefl a.data

theorem strLt_asymm {a b : String} (h : strLt a b = true) : strLt b a = false :=
  listCharLt_asymm a.data b.data h

theorem strLt_trans {a b c : String} (h1 : strLt a b = true)
    (h2 : strLt b c = true) : strLt a c = true :=
  listCharLt_trans a.data b.data c.data h1 h2

theorem strLt_trichotomy (a b : String) :
    strLt a b = true ∨ a = b ∨ strLt b a = true := by
  cases h1 : strLt a b with
  | true => exact Or.inl rfl
  | false =>
    cases h2 : strLt b a with
    | true => exact Or.inr (Or.inr rfl)
    | false =>
      refine Or.inr (Or.inl ?_)
      have hdata := listCharLt_total a.data b.data h1 h2
      obtain ⟨da⟩ := a
      obtain ⟨db⟩ := b
      exact congrArg String.mk hdata

theorem strLt_ne {a b : String} (h : strLt a b = true) : a ≠ b := by
  intro he
  subst he
  rw [strLt_irrefl] at h
  exact absurd h (by simp)

/-- Keys strictly ascend: the ordering invariant of the `BTreeMap` model. -/
abbrev KeyLt (a b : String × Error) : Prop := strLt a.1 b.1 = true

theorem splitWsAux_ne_nil (l : List Char) :
    ∀ (acc t : List Char), t ∈ splitWsAux l acc → t ≠ [] := by
  induction l with
  | nil =>
    intro acc t ht
    unfold splitWsAux at ht
    split at ht
    · simp at ht
    · next h =>
      simp only [List.mem_singleton] at ht
      subst ht
      simp only [ne_eq, List.reverse_eq_nil_iff]
      intro hx
      rw [hx] at h
      simp at h
  | cons c rest ih =>
    intro acc t ht
    unfold splitWsAux at ht
    split at ht
    · split at ht
      · exact ih [] t ht
      · next h =>
        rcases List.mem_cons.mp ht with rfl | hmem
        · simp only [ne_eq, List.reverse_eq_nil_iff]
          intro hx
          rw [hx] at h
          simp at h
        · exact ih [] t hmem
    · exact ih (c :: acc) t ht

theorem mem_splitWhitespace_ne_empty (s t : String) (ht : t ∈ splitWhitespace s) :
    t ≠ "" := by
  rcases List.mem_map.mp ht with ⟨l, hl, rfl⟩
  intro h
  exact splitWsAux_ne_nil s.data [] l hl (congrArg String.data h)

theorem mem_btreeInsert (k : String) (v : Error) :
    ∀ (m : List (String × Error)) (p : String × Error),
      p ∈ btreeInsert k v m → p = (k, v) ∨ p ∈ m := by
  intro m
  induction m with
  | nil =>
    intro p hp
    simp only [btreeInsert, List.mem_singleton] at hp
    exact Or.inl hp
  | cons a rest ih =>
    obtain ⟨k', v'⟩ := a
    intro p hp
    simp only [btreeInsert] at hp
    split_ifs at hp with h1 h2
    · rcases List.mem_cons.mp hp with rfl | h
      · exact Or.inl rfl
      · exact Or.inr h
    · rcases List.mem_cons.mp hp with rfl | h
      · exact Or.inl rfl
      · exact Or.inr (List.mem_cons_of_mem _ h)
    · rcases List.mem_cons.mp hp with rfl | h
      · exact Or.inr (List.mem_cons_self _ _)
      · rcases ih p h with h' | h'
        · exact Or.inl h'
        · exact Or.inr (List.mem_cons_of_mem _ h')

theorem btreeInsert_pairwise (k : String) (v : Error) :
    ∀ (m : List (String × Error)),
      m.Pairwise KeyLt → (btreeInsert k v m).Pairwise KeyLt := by
  intro m
  induction m with
  | nil =>
    intro _
    simp [btreeInsert]
  | cons a rest ih =>
    obtain ⟨k', v'⟩ := a
    intro hp
    rw [List.pairwise_cons] at hp
    obtain ⟨ha, hrest⟩ := hp
    simp only [btreeInsert]
    split_ifs with h1 h2
    · refine List.pairwise_cons.mpr ⟨?_, List.pairwise_cons.mpr ⟨ha, hrest⟩⟩
      intro b hb
      rcases List.mem_cons.mp hb with rfl | hmem
      · exact h1
      · exact strLt_trans h1 (ha b hmem)
    · subst h2
      exact List.pairwise_cons.mpr ⟨fun b hb => ha b hb, hrest⟩
    · have hk : strLt k' k = true := by
        rcases strLt_trichotomy k k' with h | h | h
        · exact absurd h h1
        · exact absurd h h2
        · exact h
      refine List.pairwise_cons.mpr ⟨?_, ih hrest⟩
      intro b hb
      rcases mem_btreeInsert k v rest b hb with rfl | hmem
      · exact hk
      · exact ha b hmem

theorem from_code_of_pairwise :
    ∀ (m : List (String × Error)), m.Pairwise KeyLt →
      ∀ (k : String) (v : Error), (k, v) ∈ m → from_code m k = some v := by
  intro m
  induction m with
  | nil =>
    intro _ k v h
    simp at h
  | cons a rest ih =>
    obtain ⟨k', v'⟩ := a
    intro hp k v hm
    rw [List.pairwise_cons] at hp
    obtain ⟨ha, hrest⟩ := hp
    rcases List.mem_cons.mp hm with heq | hmem
    · obtain ⟨rfl, rfl⟩ := Prod.mk.injEq .. ▸ heq
      simp [from_code]
    · have hk : strLt k' k = true := ha (k, v) hmem
      have hne : k ≠ k' := Ne.symm (strLt_ne hk)
      simp only [from_code, if_neg hne]
      exact ih hrest k v hmem

theorem from_code_btreeInsert_self (k : String) (v : Error) :
    ∀ (m : List (String × Error)), from_code (btreeInsert k v m) k = some v := by
  intro m
  induction m with
  | nil => simp [btreeInsert, from_code]
  | cons a rest ih =>
    obtain ⟨k', v'⟩ := a
    simp only [btreeInsert]
    split_ifs with h1 h2
    · simp [from_code]
    · simp [from_code]
    · simp only [from_code, if_neg h2]
      exact ih

theorem from_code_btreeInsert_ne (k c : String) (v : Error) (hne : c ≠ k) :
    ∀ (m : List (String × Error)),
      from_code (btreeInsert k v m) c = from_code m c := by
  intro m
  induction m with
  | nil => simp [btreeInsert, from_code, hne]
  | cons a rest ih =>
    obtain ⟨k', v'⟩ := a
    simp only [btreeInsert]
    split_ifs with h1 h2
    · simp [from_code, hne]
    · subst h2
      simp [from_code, hne]
    · by_cases hck : c = k'
      · simp [from_code, hck]
      · simp [from_code, hck, ih]

theorem parseLinesAux_pairwise :
    ∀ (ls : List String) (acc m : List (String × Error)),
      acc.Pairwise KeyLt → parseLinesAux acc ls = some m → m.Pairwise KeyLt := by
  intro ls
  induction ls with
  | nil =>
    intro acc m hp h
    simp only [parseLinesAux, Option.some.injEq] at h
    exact h ▸ hp
  | cons l ls ih =>
    intro acc m hp h
    simp only [parseLinesAux] at h
    cases hpl : processLine l <;> rw [hpl] at h
    · exact ih acc m hp h
    · exact ih _ m (btreeInsert_pairwise _ _ acc hp) h
    · simp at h

theorem parseLinesAux_append :
    ∀ (xs ys : List String) (acc : List (String × Error)),
      parseLinesAux acc (xs ++ ys) =
        (parseLinesAux acc xs).bind (fun acc' => parseLinesAux acc' ys) := by
  intro xs
  induction xs with
  | nil =>
    intro ys acc
    simp [parseLinesAux]
  | cons x xs ih =>
    intro ys acc
    simp only [List.cons_append, parseLinesAux]
    cases hpl : processLine x <;> simp only
    · exact ih ys acc
    · exact ih ys _
    · simp

theorem parseLinesAux_fault :
    ∀ (ls : List String) (acc : List (String × Error)) (l : String),
      l ∈ ls → processLine l = LineResult.fault → parseLinesAux acc ls = none := by
  intro ls
  induction ls with
  | nil =>
    intro acc l hl _
    simp at hl
  | cons x xs ih =>
    intro acc l hl hf
    rcases List.mem_cons.mp hl with rfl | hmem
    · simp [parseLinesAux, hf]
    · simp only [parseLinesAux]
      cases hpl : processLine x <;> simp only
      · exact ih acc l hmem hf
      · exact ih _ l hmem hf

theorem parseLinesAux_mem :
    ∀ (ls : List String) (acc m : List (String × Error)),
      parseLinesAux acc ls = some m →
      ∀ p ∈ m, p ∈ acc ∨ ∃ l ∈ ls, processLine l = LineResult.entry p.1 p.2 := by
  intro ls
  induction ls with
  | nil =>
    intro acc m h p hp
    simp only [parseLinesAux, Option.some.injEq] at h
    exact Or.inl (h ▸ hp)
  | cons x xs ih =>
    intro acc m h p hp
    simp only [parseLinesAux] at h
    cases hpl : processLine x <;> rw [hpl] at h
    · rcases ih acc m h p hp with h' | ⟨l, hl, he⟩
      · exact Or.inl h'
      · exact Or.inr ⟨l, List.mem_cons_of_mem _ hl, he⟩
    · rcases ih _ m h p hp with h' | ⟨l, hl, he⟩
      · rcases mem_btreeInsert _ _ acc p h' with rfl | hmem
        · exact Or.inr ⟨x, List.mem_cons_self _ _, hpl⟩
        · exact Or.inl hmem
      · exact Or.inr ⟨l, List.mem_cons_of_mem _ hl, he⟩
    · simp at h

theorem parseLinesAux_lookup_preserved :
    ∀ (ls : List String) (acc m : List (String × Error)) (c : String),
      (∀ l ∈ ls, rowCode l ≠ some c) →
      parseLinesAux acc ls = some m →
      from_code m c = from_code acc c := by
  intro ls
  induction ls with
  | nil =>
    intro acc m c _ h
    simp only [parseLinesAux, Option.some.injEq] at h
    exact h ▸ rfl
  | cons x xs ih =>
    intro acc m c hnc h
    simp only [parseLinesAux] at h
    cases hpl : processLine x <;> rw [hpl] at h
    · exact ih acc m c (fun l hl => hnc l (List.mem_cons_of_mem _ hl)) h
    · next k e =>
      have hk : k ≠ c := by
        intro hkc
        exact hnc x (List.mem_cons_self _ _) (by simp [rowCode, hpl, hkc])
      rw [ih _ m c (fun l hl => hnc l (List.mem_cons_of_mem _ hl)) h]
      exact from_code_btreeInsert_ne k c e (fun hck => hk hck.symm) acc
    · simp at h

theorem processLine_entry_inv (line c : String) (e : Error)
    (h : processLine line = LineResult.entry c e) :
    skipLine line = false ∧
    ∃ kindTok nameTok rest3,
      splitWhitespace line = c :: kindTok :: nameTok :: rest3 ∧
      parseKind kindTok = some e.kind ∧
      e.code = c ∧
      e.name = String.mk (removeERRCODE nameTok.data) ∧
      e.message = rest3.head?.map replaceUnderscores := by
  unfold processLine at h
  split at h
  · exact absurd h (by simp)
  · next hskip =>
    split at h
    · exact absurd h (by simp)
    · next code rest heq =>
      split at h
      · exact absurd h (by simp)
      · next kindTok rest2 =>
        split at h
        · exact absurd h (by simp)
        · next kind hkind =>
          split at h
          · exact absurd h (by simp)
          · next nameTok rest3 =>
            injection h with h1 h2
            subst h1
            subst h2
            exact ⟨by simpa using hskip, kindTok, nameTok, rest3, heq, hkind,
              rfl, rfl, rfl⟩

theorem processLine_skip_inv (line : String)
    (h : processLine line = LineResult.skip) : skipLine line = true := by
  unfold processLine at h
  split at h
  · next hs => exact hs
  · next hs =>
    split at h
    · exact absurd h (by simp)
    · split at h
      · exact absurd h (by simp)
      · split at h
        · exact absurd h (by simp)
        · split at h
          · exact absurd h (by simp)
          · exact absurd h (by simp)

theorem btreeInsert_comm (k1 k2 : String) (v1 v2 : Error) (hne : k1 ≠ k2) :
    ∀ (m : List (String × Error)),
      btreeInsert k1 v1 (btreeInsert k2 v2 m) = btreeInsert k2 v2 (btreeInsert k1 v1 m) := by
  intro m
  induction m with
  | nil =>
    rcases strLt_trichotomy k1 k2 with h | h | h
    · simp [btreeInsert, h, strLt_asymm h, hne, Ne.symm hne]
    · exact absurd h hne
    · simp [btreeInsert, h, strLt_asymm h, hne, Ne.symm hne]
  | cons a rest ih =>
    obtain ⟨k', v'⟩ := a
    rcases strLt_trichotomy k1 k' with h1 | h1 | h1
    · rcases strLt_trichotomy k2 k' with h2 | h2 | h2
      · rcases strLt_trichotomy k1 k2 with h3 | h3 | h3
        · simp [btreeInsert, h1, h2, h3, strLt_asymm h3, hne, Ne.symm hne]
        · exact absurd h3 hne
        · simp [btreeInsert, h1, h2, h3, strLt_asymm h3, hne, Ne.symm hne]
      · subst h2
        simp [btreeInsert, h1, strLt_asymm h1, hne, Ne.symm hne, strLt_irrefl]
      · simp [btreeInsert, h1, h2, strLt_asymm h2, strLt_ne h2,
          Ne.symm (strLt_ne h2), strLt_asymm (strLt_trans h1 h2), hne,
          Ne.symm hne]
    · subst h1
      rcases strLt_trichotomy k2 k1 with h2 | h2 | h2
      · simp [btreeInsert, h2, strLt_asymm h2, hne, Ne.symm hne, strLt_irrefl]
      · exact absurd h2.symm hne
      · simp [btreeInsert, h2, strLt_asymm h2, hne, Ne.symm hne, strLt_irrefl]
    · rcases strLt_trichotomy k2 k' with h2 | h2 | h2
      · simp [btreeInsert, h1, h2, strLt_asymm h1, strLt_ne h1,
          Ne.symm (strLt_ne h1), strLt_asymm (strLt_trans h2 h1), hne,
          Ne.symm hne]
      · subst h2
        simp [btreeInsert, h1, strLt_asymm h1, hne, Ne.symm hne, strLt_irrefl]
      · simp [btreeInsert, h1, h2, strLt_asymm h1, strLt_ne h1,
          Ne.symm (strLt_ne h1), strLt_asymm h2, strLt_ne h2,
          Ne.symm (strLt_ne h2), ih]

/-- Two lines do not both produce a data entry for the same code. -/
def RowsDistinct (a b : String) : Prop :=
  rowCode a = none ∨ rowCode a ≠ rowCode b

instance (a b : String) : Decidable (RowsDistinct a b) := by
  unfold RowsDistinct
  infer_instance

theorem rowsDistinct_symm : Symmetric RowsDistinct := by
  intro a b h
  rcases h with h | h
  · cases hb : rowCode b with
    | none => exact Or.inl hb
    | some c =>
      refine Or.inr ?_
      rw [hb, h]
      simp
  · exact Or.inr (Ne.symm h)

theorem parseLinesAux_perm :
    ∀ (ls ls' : List String), ls.Perm ls' →
      ls.Pairwise RowsDistinct →
      ∀ (acc : List (String × Error)), parseLinesAux acc ls = parseLinesAux acc ls' := by
  intro ls ls' hperm
  induction hperm with
  | nil =>
    intro _ acc
    rfl
  | cons x h ih =>
    intro hp acc
    rw [List.pairwise_cons] at hp
    simp only [parseLinesAux]
    cases hpl : processLine x <;> simp only
    · exact ih hp.2 acc
    · exact ih hp.2 _
  | swap x y l =>
    intro hp acc
    rw [List.pairwise_cons] at hp
    have hyx := hp.1 x (List.mem_cons_self _ _)
    simp only [parseLinesAux]
    cases hpx : processLine x with
    | skip =>
      cases hpy : processLine y <;> rfl
    | fault =>
      cases hpy : processLine y <;> rfl
    | entry cx ex =>
      cases hpy : processLine y with
      | skip => rfl
      | fault => rfl
      | entry cy ey =>
        simp only
        have hcc : cx ≠ cy := by
          rcases hyx with h | h
          · rw [rowCode, hpy] at h
            exact absurd h (by simp)
          · rw [rowCode, rowCode, hpy, hpx] at h
            intro he
            exact h (by rw [he])
        rw [btreeInsert_comm cx cy ex ey hcc acc]
  | trans h1 h2 ih1 ih2 =>
    intro hp acc
    rw [ih1 hp acc, ih2 ((h1.pairwise_iff (fun h => rowsDistinct_symm h)).mp hp) acc]

theorem parse_errors_inv (input : String) (m : List (String × Error))
    (h : parse_errors input = some m) :
    m.Pairwise KeyLt ∧
      ∀ p ∈ m, p.2.code = p.1 ∧
        ∃ l ∈ rustLines input, processLine l = LineResult.entry p.1 p.2 := by
  constructor
  · exact parseLinesAux_pairwise (rustLines input) [] m List.Pairwise.nil h
  · intro p hp
    rcases parseLinesAux_mem (rustLines input) [] m h p hp with h' | ⟨l, hl, he⟩
    · simp at h'
    · obtain ⟨_, _, _, _, _, _, hcode, _⟩ := processLine_entry_inv l p.1 p.2 he
      exact ⟨hcode, l, hl, he⟩

end Sqlstate

section SanityChecks

open Sqlstate

example : rustLines "a\nb\n" = ["a", "b"] := by decide

example : splitWhitespace "  42601  E  ERRCODE_SYNTAX_ERROR syntax_error " =
    ["42601", "E", "ERRCODE_SYNTAX_ERROR", "syntax_error"] := by decide

example : parse_errors "42601 E ERRCODE_SYNTAX_ERROR syntax_error\n" =
    some [("42601", ⟨"42601", Kind.Error, "SYNTAX_ERROR", some "syntax error"⟩)] := by
  decide

end SanityChecks

namespace Sqlstate

/-! ### Claim theorems -/

/-- C1: for every entry in the parsed mapping, the emitted `from_code`
lookup maps that entry's code string to the corresponding constant, and
that constant's `code` field equals the input code. -/
theorem c1_from_code_roundtrip (input : String) (m : List (String × Error))
    (k : String) (v : Error)
    (hm : parse_errors input = some m) (hkv : (k, v) ∈ m) :
    from_code m k = some v ∧ v.code = k := by
  obtain ⟨hpw, hinv⟩ := parse_errors_inv input m hm
  exact ⟨from_code_of_pairwise m hpw k v hkv, (hinv (k, v) hkv).1⟩

/-- C1 witness: the round-trip theorem applied to a one-row table. -/
theorem c1_from_code_roundtrip_witness :
    from_code [("42601", ⟨"42601", Kind.Error, "SYNTAX_ERROR", some "syntax error"⟩)]
        "42601" = some ⟨"42601", Kind.Error, "SYNTAX_ERROR", some "syntax error"⟩ ∧
    (⟨"42601", Kind.Error, "SYNTAX_ERROR", some "syntax error"⟩ : Error).code = "42601" :=
  c1_from_code_roundtrip "42601 E ERRCODE_SYNTAX_ERROR syntax_error\n"
    [("42601", ⟨"42601", Kind.Error, "SYNTAX_ERROR", some "syntax error"⟩)]
    "42601" ⟨"42601", Kind.Error, "SYNTAX_ERROR", some "syntax error"⟩
    (by decide) (by decide)

/-- C8: the two concrete single-row scenarios: a row with no description
yields `SUCCESSFUL_COMPLETION`, severity Success and no message; a row with
a description yields `SYNTAX_ERROR`, severity Error and the
underscore-to-space message "syntax error". -/
theorem c8_concrete_scenarios :
    parse_errors "00000 S ERRCODE_SUCCESSFUL_COMPLETION\n" =
      some [("00000", ⟨"00000", Kind.Success, "SUCCESSFUL_COMPLETION", none⟩)] ∧
    parse_errors "42601 E ERRCODE_SYNTAX_ERROR syntax_error\n" =
      some [("42601", ⟨"42601", Kind.Error, "SYNTAX_ERROR", some "syntax error"⟩)] := by
  constructor
  · decide
  · decide

/-- C10: `replace("ERRCODE_", "")` deletes every occurrence of the pattern,
not only a leading prefix: an interior occurrence is removed, and a third
field equal to exactly "ERRCODE_" yields the empty identifier. -/
theorem c10_errcode_removed_everywhere :
    parse_errors "AAAAA E FOO_ERRCODE_BAR\n" =
      some [("AAAAA", ⟨"AAAAA", Kind.Error, "FOO_BAR", none⟩)] ∧
    parse_errors "BBBBB E ERRCODE_\n" =
      some [("BBBBB", ⟨"BBBBB", Kind.Error, "", none⟩)] ∧
    removeERRCODE "ERRCODE_X_ERRCODE_Y".data = "X_Y".data := by
  refine ⟨by decide, by decide, by decide⟩

/-- C3 counterexample: a data row whose first field is "ABC" (length 3,
violating `[0-9A-Z]{5}`) is accepted by the parser, not rejected. -/
theorem c3_counterexample :
    parse_errors "ABC E ERRCODE_FOO\n" =
      some [("ABC", ⟨"ABC", Kind.Error, "FOO", none⟩)] ∧
    ("ABC" : String).length = 3 := by
  refine ⟨by decide, by decide⟩

/-- C3 amended: the parser copies the first field verbatim as the code of a
non-skipped row, with no length or character-class validation; every stored
code is the literal first whitespace-separated field of some input line. -/
theorem c3_code_verbatim (input : String) (m : List (String × Error))
    (hm : parse_errors input = some m) :
    ∀ p ∈ m, ∃ l ∈ rustLines input,
      skipLine l = false ∧ ∃ t, splitWhitespace l = p.2.code :: t := by
  intro p hp
  obtain ⟨hpw, hinv⟩ := parse_errors_inv input m hm
  obtain ⟨hcode, l, hl, he⟩ := hinv p hp
  obtain ⟨hskip, kindTok, nameTok, rest3, hsw, _⟩ := processLine_entry_inv l p.1 p.2 he
  exact ⟨l, hl, hskip, kindTok :: nameTok :: rest3, by rw [hcode]; exact hsw⟩

/-- C3 witness: the verbatim-code theorem applied to the accepted
short-code table. -/
theorem c3_code_verbatim_witness :
    ∃ l ∈ rustLines "ABC E ERRCODE_FOO\n",
      skipLine l = false ∧
        ∃ t, splitWhitespace l =
          (⟨"ABC", Kind.Error, "FOO", none⟩ : Error).code :: t :=
  c3_code_verbatim "ABC E ERRCODE_FOO\n"
    [("ABC", ⟨"ABC", Kind.Error, "FOO", none⟩)] (by decide)
    ("ABC", ⟨"ABC", Kind.Error, "FOO", none⟩) (by decide)

/-- C7 counterexample: the row "AAAAA E ERRCODE_" produces an entry whose
identifier is the empty string, refuting "identifier is non-empty". -/
theorem c7_counterexample :
    parse_errors "AAAAA E ERRCODE_\n" =
      some [("AAAAA", ⟨"AAAAA", Kind.Error, "", none⟩)] := by
  decide

/-- C7 amended: every entry's code is a non-empty string (the identifier,
by contrast, can be empty, as the counterexample shows). -/
theorem c7_code_nonempty (input : String) (m : List (String × Error))
    (hm : parse_errors input = some m) :
    ∀ p ∈ m, p.2.code ≠ "" := by
  intro p hp
  obtain ⟨hpw, hinv⟩ := parse_errors_inv input m hm
  obtain ⟨hcode, l, hl, he⟩ := hinv p hp
  obtain ⟨hskip, kindTok, nameTok, rest3, hsw, _⟩ := processLine_entry_inv l p.1 p.2 he
  have hmem : p.1 ∈ splitWhitespace l := by
    rw [hsw]
    exact List.mem_cons_self _ _
  rw [hcode]
  exact mem_splitWhitespace_ne_empty l p.1 hmem

/-- C7 witness: code non-emptiness applied to a concrete one-row table. -/
theorem c7_code_nonempty_witness :
    (⟨"00000", Kind.Success, "A", none⟩ : Error).code ≠ "" :=
  c7_code_nonempty "00000 S ERRCODE_A\n"
    [("00000", ⟨"00000", Kind.Success, "A", none⟩)] (by decide)
    ("00000", ⟨"00000", Kind.Success, "A", none⟩) (by decide)

end Sqlstate


namespace Sqlstate

theorem processLine_fault_of_short (line : String) (hskip : skipLine line = false)
    (hshort : (splitWhitespace line).length < 3) :
    processLine line = LineResult.fault := by
  cases hres : processLine line with
  | fault => rfl
  | skip =>
    have := processLine_skip_inv line hres
    rw [hskip] at this
    exact absurd this (by simp)
  | entry c e =>
    obtain ⟨_, kindTok, nameTok, rest3, hsw, _⟩ := processLine_entry_inv line c e hres
    rw [hsw] at hshort
    simp only [List.length_cons] at hshort
    omega

/-- C4: a data row with fewer than three whitespace-separated fields makes
the whole generation run abort with a parse fault: `build` produces no
output at all (the `none` models the panic raised before any byte is
written to the sink). -/
theorem c4_short_row_aborts (input line : String)
    (hl : line ∈ rustLines input) (hskip : skipLine line = false)
    (hshort : (splitWhitespace line).length < 3) :
    build input = none := by
  have hf := processLine_fault_of_short line hskip hshort
  unfold build parse_errors
  rw [parseLinesAux_fault (rustLines input) [] line hl hf]
  rfl

/-- C4 witness: a two-field row aborts the build of a two-line table. -/
theorem c4_short_row_aborts_witness :
    build "00000 S ERRCODE_OK\nAAAAA E\n" = none :=
  c4_short_row_aborts "00000 S ERRCODE_OK\nAAAAA E\n" "AAAAA E"
    (by decide) (by decide) (by decide)

/-- C5: on a non-skipped data row the second field "E" maps to severity
Error, "W" to Warning, "S" to Success, and any other second field is a
fatal parse fault, never silently accepted as some severity. -/
theorem c5_severity_mapping (line c s : String) (rest : List String)
    (hskip : skipLine line = false)
    (hsw : splitWhitespace line = c :: s :: rest) :
    (s ≠ "E" → s ≠ "W" → s ≠ "S" → processLine line = LineResult.fault) ∧
    (∀ (c' : String) (e : Error), processLine line = LineResult.entry c' e →
       (s = "E" ∧ e.kind = Kind.Error) ∨ (s = "W" ∧ e.kind = Kind.Warning) ∨
       (s = "S" ∧ e.kind = Kind.Success)) := by
  constructor
  · intro hE hW hS
    cases hres : processLine line with
    | fault => rfl
    | skip =>
      have := processLine_skip_inv line hres
      rw [hskip] at this
      exact absurd this (by simp)
    | entry c' e =>
      obtain ⟨_, kindTok, nameTok, rest3, hsw', hpk, _⟩ :=
        processLine_entry_inv line c' e hres
      rw [hsw] at hsw'
      injection hsw' with h1 htail
      injection htail with h2 _
      rw [← h2] at hpk
      unfold parseKind at hpk
      rw [if_neg hE, if_neg hW, if_neg hS] at hpk
      exact absurd hpk (by simp)
  · intro c' e he
    obtain ⟨_, kindTok, nameTok, rest3, hsw', hpk, _⟩ :=
      processLine_entry_inv line c' e he
    rw [hsw] at hsw'
    injection hsw' with h1 htail
    injection htail with h2 _
    rw [← h2] at hpk
    unfold parseKind at hpk
    split_ifs at hpk with hE hW hS
    · exact Or.inl ⟨hE, by injection hpk with h; exact h.symm⟩
    · exact Or.inr (Or.inl ⟨hW, by injection hpk with h; exact h.symm⟩)
    · exact Or.inr (Or.inr ⟨hS, by injection hpk with h; exact h.symm⟩)

/-- C5 witness: the mapping theorem applied to a row whose second field is
the unrecognised token "Q". -/
theorem c5_severity_mapping_witness :
    (("Q" : String) ≠ "E" → ("Q" : String) ≠ "W" → ("Q" : String) ≠ "S" →
       processLine "AAAAA Q ERRCODE_FOO" = LineResult.fault) ∧
    (∀ (c' : String) (e : Error),
       processLine "AAAAA Q ERRCODE_FOO" = LineResult.entry c' e →
       (("Q" : String) = "E" ∧ e.kind = Kind.Error) ∨
       (("Q" : String) = "W" ∧ e.kind = Kind.Warning) ∨
       (("Q" : String) = "S" ∧ e.kind = Kind.Success)) :=
  c5_severity_mapping "AAAAA Q ERRCODE_FOO" "AAAAA" "Q" ["ERRCODE_FOO"]
    (by decide) (by decide)

end Sqlstate

namespace Sqlstate

/-- C6: the final parsed mapping has at most one entry per code (its key
list has no duplicates), and when several data rows carry the same code the
stored entry is the one built from the last such row (last write wins). -/
theorem c6_last_write_wins :
    (∀ (input : String) (m : List (String × Error)), parse_errors input = some m →
       (m.map Prod.fst).Nodup) ∧
    (∀ (pre suf : List String) (line c : String) (e : Error)
       (m : List (String × Error)),
       processLine line = LineResult.entry c e →
       (∀ l ∈ suf, rowCode l ≠ some c) →
       parseLinesAux [] (pre ++ line :: suf) = some m →
       from_code m c = some e) := by
  constructor
  · intro input m hm
    have hpw := parseLinesAux_pairwise (rustLines input) [] m List.Pairwise.nil hm
    exact List.Pairwise.map Prod.fst (fun a b h => strLt_ne h) hpw
  · intro pre suf line c e m hline hsuf hparse
    rw [parseLinesAux_append pre (line :: suf) []] at hparse
    cases hpre : parseLinesAux [] pre with
    | none =>
      rw [hpre] at hparse
      simp at hparse
    | some acc =>
      rw [hpre] at hparse
      simp only [Option.some_bind] at hparse
      simp only [parseLinesAux, hline] at hparse
      rw [parseLinesAux_lookup_preserved suf (btreeInsert c e acc) m c hsuf hparse]
      exact from_code_btreeInsert_self c e acc

/-- C6 witness: duplicate code "AAAAA" across two rows; the later row's
entry (severity Warning, name Y) is the one stored and looked up. -/
theorem c6_last_write_wins_witness :
    (([("AAAAA", ⟨"AAAAA", Kind.Warning, "Y", none⟩)] :
        List (String × Error)).map Prod.fst).Nodup ∧
    from_code [("AAAAA", ⟨"AAAAA", Kind.Warning, "Y", none⟩),
        ("BBBBB", ⟨"BBBBB", Kind.Success, "Z", none⟩)] "AAAAA" =
      some ⟨"AAAAA", Kind.Warning, "Y", none⟩ :=
  ⟨c6_last_write_wins.1 "AAAAA E ERRCODE_X\nAAAAA W ERRCODE_Y\n"
      [("AAAAA", ⟨"AAAAA", Kind.Warning, "Y", none⟩)] (by decide),
   c6_last_write_wins.2 ["AAAAA E ERRCODE_X"] ["BBBBB S ERRCODE_Z"]
      "AAAAA W ERRCODE_Y" "AAAAA" ⟨"AAAAA", Kind.Warning, "Y", none⟩
      [("AAAAA", ⟨"AAAAA", Kind.Warning, "Y", none⟩),
       ("BBBBB", ⟨"BBBBB", Kind.Success, "Z", none⟩)]
      (by decide) (by decide) (by decide)⟩

end Sqlstate

namespace Sqlstate

/-- C9: a line whose first character is whitespace but whose first
non-whitespace character is the comment marker is not skipped — it becomes
a data row whose first token starts with the marker — while lines with the
marker at position zero, lines starting with "Section" at position zero,
and whitespace-only lines are the ones skipped. -/
theorem c9_only_position_zero_comments :
    (∀ (line : String) (c : Char) (cs : List Char),
       line.data = c :: cs → rustIsWhitespace c = true →
       (line.data.dropWhile rustIsWhitespace).head? = some '#' →
       skipLine line = false) ∧
    parse_errors " # E ERRCODE_HASH\n" =
      some [("#", ⟨"#", Kind.Error, "HASH", none⟩)] ∧
    parse_errors "# E ERRCODE_HASH\n" = some [] ∧
    parse_errors "Section 1\n" = some [] ∧
    parse_errors " \t \n" = some [] := by
  refine ⟨?_, by decide, by decide, by decide, by decide⟩
  intro line c cs hdata hw hh
  have hcHash : c ≠ '#' := by
    intro h
    rw [h] at hw
    exact absurd hw (by decide)
  have h1 : (decide (line.data.head? = some '#') : Bool) = false := by
    rw [decide_eq_false_iff_not, hdata]
    simp only [List.head?_cons, Option.some.injEq]
    exact hcHash
  have hcS : ('S' == c) = false := by
    rw [beq_eq_false_iff_ne]
    intro h
    rw [← h] at hw
    exact absurd hw (by decide)
  have h2 : "Section".data.isPrefixOf line.data = false := by
    have hsec : "Section".data = 'S' :: "ection".data := rfl
    rw [hsec, hdata]
    simp [List.isPrefixOf, hcS]
  have hd : line.data.dropWhile rustIsWhitespace ≠ [] := by
    intro h0
    rw [h0] at hh
    exact absurd hh (by simp)
  have hhash_mem : '#' ∈ line.data.dropWhile rustIsWhitespace := by
    cases hdw : line.data.dropWhile rustIsWhitespace with
    | nil => exact absurd hdw hd
    | cons a t =>
      rw [hdw] at hh
      simp only [List.head?_cons, Option.some.injEq] at hh
      rw [hh]
      exact List.mem_cons_self _ _
  have h3 : (rustTrim line.data).isEmpty = false := by
    suffices hne : rustTrim line.data ≠ [] by
      cases htr : rustTrim line.data with
      | nil => exact absurd htr hne
      | cons a t => rfl
    intro h0
    unfold rustTrim at h0
    rw [List.reverse_eq_nil_iff, List.dropWhile_eq_nil_iff] at h0
    have := h0 '#' (List.mem_reverse.mpr hhash_mem)
    exact absurd this (by decide)
  unfold skipLine
  rw [h1, h2, h3]
  rfl

end Sqlstate

namespace Sqlstate

/-- C2 counterexample: two data rows sharing the code "AAAAA" but differing
otherwise; swapping the two rows is a permutation of the input rows, yet
the generator's output (and already the parsed mapping) differs, because
the later duplicate overwrites the earlier one. -/
theorem c2_counterexample :
    (["AAAAA E ERRCODE_X", "AAAAA W ERRCODE_Y"] : List String).Perm
        ["AAAAA W ERRCODE_Y", "AAAAA E ERRCODE_X"] ∧
    rustLines "AAAAA E ERRCODE_X\nAAAAA W ERRCODE_Y\n" =
      ["AAAAA E ERRCODE_X", "AAAAA W ERRCODE_Y"] ∧
    rustLines "AAAAA W ERRCODE_Y\nAAAAA E ERRCODE_X\n" =
      ["AAAAA W ERRCODE_Y", "AAAAA E ERRCODE_X"] ∧
    build "AAAAA E ERRCODE_X\nAAAAA W ERRCODE_Y\n" ≠
      build "AAAAA W ERRCODE_Y\nAAAAA E ERRCODE_X\n" :=
  ⟨List.Perm.swap _ _ _, by decide, by decide, by decide⟩

/-- C2 amended: the emitted constants always appear in strictly ascending
lexicographic order of their code strings; and when the entry-producing
rows have pairwise distinct codes, any permutation of the input rows
yields the same parse result, hence the same emitted sequence. -/
theorem c2_sorted_and_perm_invariant :
    (∀ (input : String) (m : List (String × Error)), parse_errors input = some m →
       (make_consts_list m).Pairwise (fun a b => strLt a.code b.code = true)) ∧
    (∀ (ls ls' : List String), ls.Perm ls' → ls.Pairwise RowsDistinct →
       parseLinesAux [] ls = parseLinesAux [] ls') := by
  constructor
  · intro input m hm
    obtain ⟨hpw, hinv⟩ := parse_errors_inv input m hm
    unfold make_consts_list
    refine List.pairwise_map.mpr ?_
    refine List.Pairwise.imp_of_mem ?_ hpw
    intro a b ha hb hab
    rw [(hinv a ha).1, (hinv b hb).1]
    exact hab
  · intro ls ls' hperm hpd
    exact parseLinesAux_perm ls ls' hperm hpd []

/-- C2 witness: the amended theorem applied to a two-row table with
distinct codes, given in descending order and in ascending order. -/
theorem c2_sorted_and_perm_invariant_witness :
    (make_consts_list [("00000", ⟨"00000", Kind.Success, "OK", none⟩),
        ("42601", ⟨"42601", Kind.Error, "SE", none⟩)]).Pairwise
      (fun a b => strLt a.code b.code = true) ∧
    parseLinesAux [] ["42601 E ERRCODE_SE", "00000 S ERRCODE_OK"] =
      parseLinesAux [] ["00000 S ERRCODE_OK", "42601 E ERRCODE_SE"] :=
  ⟨c2_sorted_and_perm_invariant.1 "42601 E ERRCODE_SE\n00000 S ERRCODE_OK\n"
      [("00000", ⟨"00000", Kind.Success, "OK", none⟩),
       ("42601", ⟨"42601", Kind.Error, "SE", none⟩)] (by decide),
   c2_sorted_and_perm_invariant.2 ["42601 E ERRCODE_SE", "00000 S ERRCODE_OK"]
      ["00000 S ERRCODE_OK", "42601 E ERRCODE_SE"]
      (List.Perm.swap _ _ _) (by decide)⟩

end Sqlstate

namespace Sqlstate

/-- C9 witness: the not-skipped part applied to a line that starts with a
space followed by the comment marker. -/
theorem c9_only_position_zero_comments_witness :
    skipLine " # E ERRCODE_HASH" = false :=
  c9_only_position_zero_comments.1 " # E ERRCODE_HASH" ' '
    "# E ERRCODE_HASH".data (by decide) (by decide) (by decide)

end Sqlstate
